import Mathlib

/-!
Verification of the simple_unicode_normalization_forms pipeline.

The Rust source (src/src/lib.rs) is embedded shallowly: a string is a list of
unicode scalar values (Lean Char), the scan over characters becomes a
structurally recursive function threading the previous_whitespace flag, and
the two external library primitives (compatibility decomposition and canonical
composition) as well as the emoji property table are parameters, since they
are consumed by the source as trusted primitives.
-/

set_option maxHeartbeats 1000000

/-- The ASCII space character U+0020. -/
def spaceChar : Char := Char.ofNat 0x20

/-- Unicode White_Space property, the predicate behind the Rust standard
library method char.is_whitespace used at line 48 of src/src/lib.rs and
behind str.trim. The 25 White_Space code points are listed explicitly. -/
def isWhitespaceChar (c : Char) : Bool :=
  decide (0x09 ≤ c.toNat ∧ c.toNat ≤ 0x0D) || decide (c.toNat = 0x20) ||
  decide (c.toNat = 0x85) || decide (c.toNat = 0xA0) || decide (c.toNat = 0x1680) ||
  decide (0x2000 ≤ c.toNat ∧ c.toNat ≤ 0x200A) || decide (c.toNat = 0x2028) ||
  decide (c.toNat = 0x2029) || decide (c.toNat = 0x202F) || decide (c.toNat = 0x205F) ||
  decide (c.toNat = 0x3000)

/-- Modelled from the spec: the emoji module of the repository (mod emoji,
providing the IsEmoji trait) is not under src, so the Unicode property-table
part (Emoji_Presentation, Emoji_Modifier, Emoji_Modifier_Base, spec section
4.2) is abstracted as the parameter emojiProp, while the fixed emoji-adjacent
code points U+FE0E, U+FE0F, U+20E2, U+20E3, U+20E4 of section 4.2 are
concrete. -/
def is_emoji (emojiProp : Char → Bool) (c : Char) : Bool :=
  emojiProp c || decide (c.toNat = 0xFE0E) || decide (c.toNat = 0xFE0F) ||
  decide (c.toNat = 0x20E2) || decide (c.toNat = 0x20E3) || decide (c.toNat = 0x20E4)

/-- Modelled from the spec: the emoji module of the repository is not under
src; per section 4.3 a decomposed code point is rejected when it lies above
U+FFFF (outside the Basic Multilingual Plane) or in the C0 or C1 control
ranges U+0000 to U+001F and U+007F to U+009F. -/
def is_char_to_avoid (c : Char) : Bool :=
  decide (0xFFFF < c.toNat) || decide (c.toNat ≤ 0x1F) ||
  decide (0x7F ≤ c.toNat ∧ c.toNat ≤ 0x9F)

/-- One step of the scan: custom_character_normalization of src/src/lib.rs,
lines 37 to 71, returned as the pair (code points appended to the buffer,
returned previous_whitespace flag). The external compatibility decomposition
primitive decompose_compatible is the parameter decomp; the source pushes,
in order, every decomposed code point that is not filtered out, which is the
filter below. -/
def custom_character_normalization (decomp : Char → List Char) (emojiProp : Char → Bool)
    (c : Char) (allow_chars : List Char) (collapse_whitespace : Bool)
    (previous_whitespace : Bool) (remove_emojis : Bool) : List Char × Bool :=
  if allow_chars.contains c then ([c], false)
  else if isWhitespaceChar c then
    (if !collapse_whitespace || !previous_whitespace then [spaceChar] else [], true)
  else if remove_emojis && is_emoji emojiProp c then ([], previous_whitespace)
  else
    let pushed := (decomp c).filter (fun r => !is_char_to_avoid r)
    if pushed.isEmpty then ([], previous_whitespace) else (pushed, false)

/-- The character loop of custom_normalization (src/src/lib.rs lines 24 to
33): fold custom_character_normalization over the input, threading the
previous_whitespace flag and concatenating the emitted code points. -/
def customNormalizationAux (decomp : Char → List Char) (emojiProp : Char → Bool)
    (allow_chars : List Char) (collapse_whitespace : Bool) (remove_emojis : Bool) :
    List Char → Bool → List Char
  | [], _ => []
  | c :: cs, prev =>
    (custom_character_normalization decomp emojiProp c allow_chars collapse_whitespace
        prev remove_emojis).1 ++
      customNormalizationAux decomp emojiProp allow_chars collapse_whitespace remove_emojis cs
        (custom_character_normalization decomp emojiProp c allow_chars collapse_whitespace
          prev remove_emojis).2

/-- custom_normalization of src/src/lib.rs lines 16 to 35: scan the input with
previous_whitespace initially false, then apply the external canonical
composition primitive (the .nfc() pass), which is the parameter nfc. -/
def custom_normalization (decomp : Char → List Char) (nfc : List Char → List Char)
    (emojiProp : Char → Bool) (str : List Char) (allow_chars : List Char)
    (collapse_whitespace : Bool) (remove_emojis : Bool) : List Char :=
  nfc (customNormalizationAux decomp emojiProp allow_chars collapse_whitespace remove_emojis
    str false)

/-- The Rust str.trim used by both entry points: remove leading and trailing
White_Space characters. -/
def trimChars (l : List Char) : List Char :=
  (l.dropWhile isWhitespaceChar).rdropWhile isWhitespaceChar

/-- The allow list built by basic_string_clean (src/src/lib.rs lines 82 to
89): the ordinal indicators, then tab when allow_tab, then LF and CR when
allow_eol. -/
def basicAllowedChars (allow_tab : Bool) (allow_eol : Bool) : List Char :=
  (['º', 'ª'] ++ (if allow_tab then ['\t'] else [])) ++
    (if allow_eol then ['\n', '\r'] else [])

/-- Entry point basic_string_clean of src/src/lib.rs lines 73 to 96. -/
def basic_string_clean (decomp : Char → List Char) (nfc : List Char → List Char)
    (emojiProp : Char → Bool) (value : List Char) (allow_tab : Bool) (allow_eol : Bool)
    (collapse_whitespace : Bool) (remove_emojis : Bool) : List Char :=
  trimChars (custom_normalization decomp nfc emojiProp value
    (basicAllowedChars allow_tab allow_eol) collapse_whitespace remove_emojis)

/-- Entry point remove_emojis of src/src/lib.rs lines 98 to 102: the fixed
preset allow_chars = ordinal indicators, collapse_whitespace = true,
remove_emojis = true, then trim. -/
def remove_emojis (decomp : Char → List Char) (nfc : List Char → List Char)
    (emojiProp : Char → Bool) (value : List Char) : List Char :=
  trimChars (custom_normalization decomp nfc emojiProp value ['º', 'ª'] true true)

/-- The four treatments of spec section 2. -/
inductive CodepointCategory where
  | allowListed
  | whitespaceCat
  | emojiCat
  | decomposable
deriving DecidableEq

/-- The CodepointCategory classifier of spec sections 2 and 4.1, written from
the words of the spec: decide, in strict priority order, which of the four
treatments applies to one character. -/
def classify (emojiProp : Char → Bool) (allow_chars : List Char) (remove_emojis : Bool)
    (c : Char) : CodepointCategory :=
  if allow_chars.contains c then .allowListed
  else if isWhitespaceChar c then .whitespaceCat
  else if remove_emojis && is_emoji emojiProp c then .emojiCat
  else .decomposable

/-- Identity compatibility decomposition: the behaviour of the external
primitive on any character that has no compatibility decomposition (the
callback receives the character itself). -/
def trivialDecomp : Char → List Char := fun c => [c]

/-- The real compatibility decomposition restricted to the characters of the
counterexample inputs: U+00A8 DIAERESIS has the compatibility decomposition
U+0020 U+0308 in the Unicode character database; every other character used
alongside it decomposes trivially. -/
def decompDiaeresis : Char → List Char := fun c =>
  if c = Char.ofNat 0xA8 then [spaceChar, Char.ofNat 0x308] else [c]

/-- The real compatibility decomposition restricted to the five halfwidth
katakana letters of the concrete scenario: U+FF71 to U+FF75 decompose to
U+30A2, U+30A4, U+30A6, U+30A8, U+30AA in the Unicode character database. -/
def decompKatakana : Char → List Char := fun c =>
  if c = 'ｱ' then ['ア']
  else if c = 'ｲ' then ['イ']
  else if c = 'ｳ' then ['ウ']
  else if c = 'ｴ' then ['エ']
  else if c = 'ｵ' then ['オ']
  else [c]

/-- An emoji property table that holds nowhere, usable for inputs that
contain no character with an emoji property. -/
def noEmojiProp : Char → Bool := fun _ => false

/-- No run of two or more consecutive ASCII spaces: no pair of adjacent
entries are both U+0020. -/
def noDoubleSpace (l : List Char) : Prop :=
  l.Chain' (fun a b => ¬(a = spaceChar ∧ b = spaceChar))

instance noDoubleSpaceDec : (l : List Char) → Decidable (noDoubleSpace l)
  | [] => isTrue List.chain'_nil
  | [a] => isTrue (List.chain'_singleton a)
  | a :: b :: t =>
    match noDoubleSpaceDec (b :: t) with
    | isTrue h =>
      if hab : ¬(a = spaceChar ∧ b = spaceChar) then isTrue (List.chain'_cons.2 ⟨hab, h⟩)
      else isFalse (fun hc => hab (List.chain'_cons.1 hc).1)
    | isFalse h => isFalse (fun hc => h (List.chain'_cons.1 hc).2)

lemma noDoubleSpace_of_forall (m : List Char) (h : ∀ x ∈ m, x ≠ spaceChar) :
    noDoubleSpace m := by
  induction m with
  | nil => exact List.chain'_nil
  | cons x t ih =>
    refine List.chain'_cons'.2 ⟨fun y _ hxy => ?_, ih fun y hy => h y (by simp [hy])⟩
    exact h x (by simp) hxy.1

lemma trimCharsIsInfixOfSelf (l : List Char) : trimChars l <:+: l := by
  have h1 : trimChars l <+: l.dropWhile isWhitespaceChar :=
    List.rdropWhile_prefix isWhitespaceChar (l.dropWhile isWhitespaceChar)
  have h2 : l.dropWhile isWhitespaceChar <:+ l := List.dropWhile_suffix isWhitespaceChar
  exact h1.isInfix.trans h2.isInfix

lemma mem_trimChars {x : Char} {l : List Char} (h : x ∈ trimChars l) : x ∈ l :=
  (trimCharsIsInfixOfSelf l).subset h

lemma trimChars_head_not (l : List Char) (x : Char) (t : List Char)
    (h : trimChars l = x :: t) : isWhitespaceChar x = false := by
  obtain ⟨s, hs⟩ :=
    List.rdropWhile_prefix isWhitespaceChar (l.dropWhile isWhitespaceChar)
  rw [show (l.dropWhile isWhitespaceChar).rdropWhile isWhitespaceChar = trimChars l from rfl,
    h] at hs
  have hne : l.dropWhile isWhitespaceChar ≠ [] := by
    rw [← hs]; simp
  have h2 := List.head_dropWhile_not isWhitespaceChar l hne
  have h4 : (l.dropWhile isWhitespaceChar).head? = some x := by
    rw [← hs]; rfl
  rw [List.head?_eq_head hne] at h4
  have h3 : (l.dropWhile isWhitespaceChar).head hne = x := Option.some.inj h4
  rw [h3] at h2
  simpa using h2

lemma trimChars_head?_not (l : List Char) (x : Char)
    (h : (trimChars l).head? = some x) : isWhitespaceChar x = false := by
  cases e : trimChars l with
  | nil => rw [e] at h; cases h
  | cons y t =>
    rw [e] at h
    simp only [List.head?_cons, Option.some.injEq] at h
    subst h
    exact trimChars_head_not l _ _ e

lemma trimChars_getLast?_not (l : List Char) (x : Char)
    (h : (trimChars l).getLast? = some x) : isWhitespaceChar x = false := by
  have hne : trimChars l ≠ [] := by
    intro e; rw [e] at h; cases h
  have h2 := List.rdropWhile_last_not isWhitespaceChar (l.dropWhile isWhitespaceChar) hne
  rw [List.getLast?_eq_getLast_of_ne_nil hne] at h
  simp only [Option.some.injEq] at h
  rw [show ((l.dropWhile isWhitespaceChar).rdropWhile isWhitespaceChar).getLast hne
      = (trimChars l).getLast hne from rfl, h] at h2
  simpa using h2

lemma trimChars_idem (l : List Char) : trimChars (trimChars l) = trimChars l := by
  have h1 : (trimChars l).dropWhile isWhitespaceChar = trimChars l := by
    cases e : trimChars l with
    | nil => simp
    | cons x t =>
      have hx := trimChars_head_not l x t e
      simp [List.dropWhile_cons, hx]
  show ((trimChars l).dropWhile isWhitespaceChar).rdropWhile isWhitespaceChar = trimChars l
  rw [h1]
  exact List.rdropWhile_idempotent isWhitespaceChar (l.dropWhile isWhitespaceChar)

lemma mem_custom_character_normalization {decomp : Char → List Char} {emojiProp : Char → Bool}
    {c : Char} {allow : List Char} {cw prev re : Bool} {x : Char}
    (hx : x ∈ (custom_character_normalization decomp emojiProp c allow cw prev re).1) :
    (x = c ∧ allow.contains c = true) ∨ x = spaceChar ∨
      (x ∈ decomp c ∧ is_char_to_avoid x = false ∧ allow.contains c = false ∧
        isWhitespaceChar c = false ∧ (re && is_emoji emojiProp c) = false) := by
  unfold custom_character_normalization at hx
  by_cases h1 : allow.contains c = true
  · rw [if_pos h1] at hx
    simp only [List.mem_singleton] at hx
    exact Or.inl ⟨hx, h1⟩
  · rw [if_neg h1] at hx
    by_cases h2 : isWhitespaceChar c = true
    · rw [if_pos h2] at hx
      by_cases h3 : (!cw || !prev) = true
      · rw [if_pos h3] at hx
        simp only [List.mem_singleton] at hx
        exact Or.inr (Or.inl hx)
      · rw [if_neg h3] at hx
        simp at hx
    · rw [if_neg h2] at hx
      by_cases h4 : (re && is_emoji emojiProp c) = true
      · rw [if_pos h4] at hx
        simp at hx
      · rw [if_neg h4] at hx
        by_cases h5 : ((decomp c).filter (fun r => !is_char_to_avoid r)).isEmpty = true
        · rw [if_pos h5] at hx
          simp at hx
        · rw [if_neg h5] at hx
          simp only [List.mem_filter, Bool.not_eq_true'] at hx
          exact Or.inr (Or.inr ⟨hx.1, by simpa using hx.2,
            Bool.not_eq_true _ ▸ h1, Bool.not_eq_true _ ▸ h2,
            Bool.not_eq_true _ ▸ h4⟩)

lemma mem_customNormalizationAux {decomp : Char → List Char} {emojiProp : Char → Bool}
    {allow : List Char} {cw re : Bool} :
    ∀ (l : List Char) (prev : Bool) (x : Char),
      x ∈ customNormalizationAux decomp emojiProp allow cw re l prev →
      ∃ c, c ∈ l ∧ ∃ p, x ∈ (custom_character_normalization decomp emojiProp c allow cw p re).1 := by
  intro l
  induction l with
  | nil => intro prev x hx; simp [customNormalizationAux] at hx
  | cons c cs ih =>
    intro prev x hx
    rw [customNormalizationAux] at hx
    rcases List.mem_append.1 hx with h | h
    · exact ⟨c, by simp, prev, h⟩
    · obtain ⟨d, hd, p, hp⟩ := ih _ x h
      exact ⟨d, by simp [hd], p, hp⟩

lemma count_customNormalizationAux {decomp : Char → List Char} {emojiProp : Char → Bool}
    {allow : List Char} {cw re : Bool} (a : Char) (ha : allow.contains a = true) :
    ∀ (l : List Char) (prev : Bool),
      l.count a ≤ (customNormalizationAux decomp emojiProp allow cw re l prev).count a := by
  intro l
  induction l with
  | nil => intro prev; simp [customNormalizationAux]
  | cons c cs ih =>
    intro prev
    rw [customNormalizationAux, List.count_append, List.count_cons]
    by_cases hc : c = a
    · subst hc
      have hemit : (custom_character_normalization decomp emojiProp c allow cw prev re).1
          = [c] := by
        unfold custom_character_normalization
        rw [if_pos ha]
      rw [hemit]
      have h1 : List.count c [c] = 1 := by simp
      have h2 : (c == c) = true := by simp
      rw [h1, h2, if_pos rfl]
      have := ih ((custom_character_normalization decomp emojiProp c allow cw prev re).2)
      omega
    · have hbeq : (c == a) = false := by
        simpa using hc
      rw [hbeq]
      simp only [Bool.false_eq_true, if_false, Nat.add_zero]
      have := ih ((custom_character_normalization decomp emojiProp c allow cw prev re).2)
      omega

lemma ccn_case_allowed {decomp : Char → List Char} {emojiProp : Char → Bool} {c : Char}
    {allow : List Char} {cw prev re : Bool} (h : allow.contains c = true) :
    custom_character_normalization decomp emojiProp c allow cw prev re = ([c], false) := by
  unfold custom_character_normalization
  rw [if_pos h]

lemma ccn_case_whitespace {decomp : Char → List Char} {emojiProp : Char → Bool} {c : Char}
    {allow : List Char} {cw prev re : Bool} (h1 : allow.contains c = false)
    (h2 : isWhitespaceChar c = true) :
    custom_character_normalization decomp emojiProp c allow cw prev re
      = ((if (!cw || !prev) = true then [spaceChar] else []), true) := by
  unfold custom_character_normalization
  rw [if_neg (by rw [h1]; simp), if_pos h2]

lemma ccn_case_emoji {decomp : Char → List Char} {emojiProp : Char → Bool} {c : Char}
    {allow : List Char} {cw prev re : Bool} (h1 : allow.contains c = false)
    (h2 : isWhitespaceChar c = false) (h3 : (re && is_emoji emojiProp c) = true) :
    custom_character_normalization decomp emojiProp c allow cw prev re
      = ([], prev) := by
  unfold custom_character_normalization
  rw [if_neg (by rw [h1]; simp), if_neg (by rw [h2]; simp), if_pos h3]

lemma ccn_case_decomp {decomp : Char → List Char} {emojiProp : Char → Bool} {c : Char}
    {allow : List Char} {cw prev re : Bool} (h1 : allow.contains c = false)
    (h2 : isWhitespaceChar c = false) (h3 : (re && is_emoji emojiProp c) = false) :
    custom_character_normalization decomp emojiProp c allow cw prev re
      = (if ((decomp c).filter (fun r => !is_char_to_avoid r)).isEmpty
          then ([], prev)
          else ((decomp c).filter (fun r => !is_char_to_avoid r), false)) := by
  unfold custom_character_normalization
  rw [if_neg (by rw [h1]; simp), if_neg (by rw [h2]; simp), if_neg (by rw [h3]; simp)]

lemma aux_head_not_space {decomp : Char → List Char} {emojiProp : Char → Bool}
    {allow : List Char} {re : Bool}
    (hsp : allow.contains spaceChar = false)
    (hdec : ∀ c x, isWhitespaceChar c = false → x ∈ decomp c →
      is_char_to_avoid x = false → x ≠ spaceChar) :
    ∀ l : List Char,
      (customNormalizationAux decomp emojiProp allow true re l true).head?
        ≠ some spaceChar := by
  intro l
  induction l with
  | nil => simp [customNormalizationAux]
  | cons c cs ih =>
    rw [customNormalizationAux]
    by_cases h1 : allow.contains c = true
    · rw [ccn_case_allowed h1]
      have hc : c ≠ spaceChar := by
        intro e
        rw [e, hsp] at h1
        cases h1
      simpa using hc
    · have h1' : allow.contains c = false := by simpa using h1
      by_cases h2 : isWhitespaceChar c = true
      · rw [ccn_case_whitespace h1' h2]
        simpa using ih
      · have h2' : isWhitespaceChar c = false := by simpa using h2
        by_cases h3 : (re && is_emoji emojiProp c) = true
        · rw [ccn_case_emoji h1' h2' h3]
          simpa using ih
        · have h3' : (re && is_emoji emojiProp c) = false := by simpa using h3
          rw [ccn_case_decomp h1' h2' h3']
          cases e : (decomp c).filter (fun r => !is_char_to_avoid r) with
          | nil => simp [e]; simpa using ih
          | cons y ys =>
            have hy : y ∈ (decomp c).filter (fun r => !is_char_to_avoid r) := by
              rw [e]; simp
            rw [List.mem_filter] at hy
            have hyne : y ≠ spaceChar :=
              hdec c y h2' hy.1 (by simpa using hy.2)
            simp [e]
            exact fun hcon => hyne hcon

lemma aux_noDoubleSpace {decomp : Char → List Char} {emojiProp : Char → Bool}
    {allow : List Char} {re : Bool}
    (hsp : allow.contains spaceChar = false)
    (hdec : ∀ c x, isWhitespaceChar c = false → x ∈ decomp c →
      is_char_to_avoid x = false → x ≠ spaceChar) :
    ∀ (l : List Char) (prev : Bool),
      noDoubleSpace (customNormalizationAux decomp emojiProp allow true re l prev) := by
  intro l
  induction l with
  | nil =>
    intro prev
    rw [customNormalizationAux]
    exact List.chain'_nil
  | cons c cs ih =>
    intro prev
    rw [customNormalizationAux]
    by_cases h1 : allow.contains c = true
    · rw [ccn_case_allowed h1]
      have hc : c ≠ spaceChar := by
        intro e
        rw [e, hsp] at h1
        cases h1
      refine List.chain'_append.2 ⟨List.chain'_singleton c, ih false, ?_⟩
      intro x hx y _
      simp at hx
      subst hx
      exact fun hcon => hc hcon.1
    · have h1' : allow.contains c = false := by simpa using h1
      by_cases h2 : isWhitespaceChar c = true
      · rw [ccn_case_whitespace h1' h2]
        cases prev with
        | true =>
          have : (!true || !true) = false := by simp
          rw [this]
          simpa using ih true
        | false =>
          have : (!true || !false) = true := by simp
          rw [this, if_pos rfl]
          refine List.chain'_append.2 ⟨List.chain'_singleton spaceChar, ih true, ?_⟩
          intro x hx y hy
          simp at hx
          subst hx
          intro hcon
          apply aux_head_not_space hsp hdec cs
          rw [Option.mem_def] at hy
          rw [← hcon.2]
          exact hy
      · have h2' : isWhitespaceChar c = false := by simpa using h2
        by_cases h3 : (re && is_emoji emojiProp c) = true
        · rw [ccn_case_emoji h1' h2' h3]
          simpa using ih prev
        · have h3' : (re && is_emoji emojiProp c) = false := by simpa using h3
          rw [ccn_case_decomp h1' h2' h3']
          cases e : (decomp c).filter (fun r => !is_char_to_avoid r) with
          | nil =>
            simp [e]
            simpa using ih prev
          | cons y ys =>
            simp only [e, List.isEmpty_cons, if_false]
            refine List.chain'_append.2 ⟨?_, ih false, ?_⟩
            · refine noDoubleSpace_of_forall _ ?_
              intro x hx
              have hx' : x ∈ (decomp c).filter (fun r => !is_char_to_avoid r) := by
                rw [e]; exact hx
              rw [List.mem_filter] at hx'
              exact hdec c x h2' hx'.1 (by simpa using hx'.2)
            · intro x hx y' _
              have hx2 := List.mem_getLast?_eq_getLast hx
              obtain ⟨hne, hxe⟩ := hx2
              have hxmem : x ∈ y :: ys := hxe ▸ List.getLast_mem hne
              have hx' : x ∈ (decomp c).filter (fun r => !is_char_to_avoid r) := by
                rw [e]; exact hxmem
              rw [List.mem_filter] at hx'
              have := hdec c x h2' hx'.1 (by simpa using hx'.2)
              exact fun hcon => this hcon.1

lemma isWhitespaceChar_spaceChar : isWhitespaceChar spaceChar = true := by decide

lemma trivialDecomp_no_space : ∀ c x, isWhitespaceChar c = false → x ∈ trivialDecomp c →
    is_char_to_avoid x = false → x ≠ spaceChar := by
  intro c x hws hmem _
  have hxc : x = c := by simpa [trivialDecomp] using hmem
  subst hxc
  intro he
  rw [he, isWhitespaceChar_spaceChar] at hws
  cases hws

lemma aux_stable_trivial {emojiProp : Char → Bool} {allow : List Char} {cw re : Bool}
    (v : List Char) (prev : Bool) :
    ∀ x ∈ customNormalizationAux trivialDecomp emojiProp allow cw re v prev,
      allow.contains x = true ∨ x = spaceChar ∨
        (isWhitespaceChar x = false ∧ is_char_to_avoid x = false ∧
          (re && is_emoji emojiProp x) = false) := by
  intro x hx
  obtain ⟨c, _, p, hp⟩ := mem_customNormalizationAux v prev x hx
  rcases mem_custom_character_normalization hp with ⟨hxc, hcon⟩ | hspx | h
  · exact Or.inl (hxc ▸ hcon)
  · exact Or.inr (Or.inl hspx)
  · obtain ⟨hmem, havoid, _, hws, hem⟩ := h
    have hxc : x = c := by simpa [trivialDecomp] using hmem
    subst hxc
    exact Or.inr (Or.inr ⟨hws, havoid, hem⟩)

lemma aux_fixpoint {emojiProp : Char → Bool} {allow : List Char} {cw re : Bool} :
    ∀ m : List Char,
      (∀ x ∈ m, allow.contains x = true ∨ x = spaceChar ∨
        (isWhitespaceChar x = false ∧ is_char_to_avoid x = false ∧
          (re && is_emoji emojiProp x) = false)) →
      (cw = true → noDoubleSpace m) →
      ∀ prev : Bool, (cw = true → prev = true → m.head? ≠ some spaceChar) →
      customNormalizationAux trivialDecomp emojiProp allow cw re m prev = m := by
  intro m
  induction m with
  | nil =>
    intro _ _ prev _
    rw [customNormalizationAux]
  | cons x t ih =>
    intro hstable hnd prev hhead
    rw [customNormalizationAux]
    by_cases hall : allow.contains x = true
    · rw [ccn_case_allowed hall]
      have ht := ih (fun y hy => hstable y (by simp [hy]))
        (fun hcw => (hnd hcw).tail) false (fun _ hf => by cases hf)
      rw [ht]
      simp
    · have hall' : allow.contains x = false := by simpa using hall
      rcases hstable x (by simp) with h | hspx | hother
      · rw [h] at hall'
        cases hall'
      · subst hspx
        rw [ccn_case_whitespace hall' isWhitespaceChar_spaceChar]
        cases cw with
        | false =>
          have hcond : (!false || !prev) = true := by simp
          rw [hcond, if_pos rfl]
          have ht := ih (fun y hy => hstable y (by simp [hy]))
            (fun hf => by cases hf) true (fun hf => by cases hf)
          rw [ht]
          simp
        | true =>
          cases prev with
          | true => exact absurd rfl (hhead rfl rfl)
          | false =>
            have hcond : (!true || !false) = true := by simp
            rw [hcond, if_pos rfl]
            have hnd' : noDoubleSpace (spaceChar :: t) := hnd rfl
            have htnd : noDoubleSpace t := hnd'.tail
            have hthead : t.head? ≠ some spaceChar := by
              intro he
              have hr := (List.chain'_cons'.1 hnd').1 spaceChar (by rw [Option.mem_def, he])
              exact hr ⟨rfl, rfl⟩
            have ht := ih (fun y hy => hstable y (by simp [hy]))
              (fun _ => htnd) true (fun _ _ => hthead)
            rw [ht]
            simp
      · obtain ⟨hws, havoid, hem⟩ := hother
        rw [ccn_case_decomp hall' hws hem]
        have hfil : (trivialDecomp x).filter (fun r => !is_char_to_avoid r) = [x] := by
          simp [trivialDecomp, havoid]
        rw [hfil]
        simp only [List.isEmpty_cons, Bool.false_eq_true, if_false]
        have ht := ih (fun y hy => hstable y (by simp [hy]))
          (fun hcw => (hnd hcw).tail) false (fun _ hf => by cases hf)
        rw [ht]
        simp

lemma pipeline_idem_core {emojiProp : Char → Bool} {allow : List Char} {cw re : Bool}
    (hsp : allow.contains spaceChar = false) (v : List Char) :
    trimChars (customNormalizationAux trivialDecomp emojiProp allow cw re
        (trimChars (customNormalizationAux trivialDecomp emojiProp allow cw re v false)) false)
      = trimChars (customNormalizationAux trivialDecomp emojiProp allow cw re v false) := by
  have hstable := fun x hx =>
    @aux_stable_trivial emojiProp allow cw re v false x (mem_trimChars hx)
  have hnd : cw = true → noDoubleSpace
      (trimChars (customNormalizationAux trivialDecomp emojiProp allow cw re v false)) := by
    intro hcw
    subst hcw
    have h1 := @aux_noDoubleSpace trivialDecomp emojiProp allow re hsp
      trivialDecomp_no_space v false
    exact List.Chain'.infix h1 (trimCharsIsInfixOfSelf _)
  have hfix := aux_fixpoint
    (trimChars (customNormalizationAux trivialDecomp emojiProp allow cw re v false))
    hstable hnd false (fun _ hf => by cases hf)
  rw [hfix]
  exact trimChars_idem _

/-- The canonical composition primitive restricted to the allow-list
counterexample: real NFC composes U+0061 followed by U+0308 COMBINING
DIAERESIS into U+00E4; everything else is untouched. -/
def nfcAUml : List Char → List Char
  | [] => []
  | [a] => [a]
  | a :: c :: t =>
    if a = 'a' && c = Char.ofNat 0x308 then 'ä' :: nfcAUml t
    else a :: nfcAUml (c :: t)

/-- C1: the per-character step of the pipeline applies exactly the treatment
selected by the strict-priority classifier (allow list first, then
whitespace, then conditional emoji removal, then compatibility decomposition
with filtering), and in particular a character that is both whitespace and
allow-listed is emitted unchanged because the allow-list step wins. -/
theorem ccn_matches_classifier (decomp : Char → List Char) (emojiProp : Char → Bool)
    (c : Char) (allow : List Char) (cw prev re : Bool) :
    (classify emojiProp allow re c = CodepointCategory.allowListed →
      custom_character_normalization decomp emojiProp c allow cw prev re = ([c], false)) ∧
    (classify emojiProp allow re c = CodepointCategory.whitespaceCat →
      custom_character_normalization decomp emojiProp c allow cw prev re
        = ((if (!cw || !prev) = true then [spaceChar] else []), true)) ∧
    (classify emojiProp allow re c = CodepointCategory.emojiCat →
      custom_character_normalization decomp emojiProp c allow cw prev re = ([], prev)) ∧
    (classify emojiProp allow re c = CodepointCategory.decomposable →
      custom_character_normalization decomp emojiProp c allow cw prev re
        = (if ((decomp c).filter (fun r => !is_char_to_avoid r)).isEmpty
            then ([], prev)
            else ((decomp c).filter (fun r => !is_char_to_avoid r), false))) ∧
    (allow.contains c = true → isWhitespaceChar c = true →
      (custom_character_normalization decomp emojiProp c allow cw prev re).1 = [c]) := by
  by_cases h1 : allow.contains c = true
  · have hcl : classify emojiProp allow re c = CodepointCategory.allowListed := by
      unfold classify
      rw [if_pos h1]
    refine ⟨fun _ => ccn_case_allowed h1, ?_, ?_, ?_, fun _ _ => by rw [ccn_case_allowed h1]⟩
    all_goals intro hc; rw [hcl] at hc; cases hc
  · have h1' : allow.contains c = false := by simpa using h1
    by_cases h2 : isWhitespaceChar c = true
    · have hcl : classify emojiProp allow re c = CodepointCategory.whitespaceCat := by
        unfold classify
        rw [if_neg (by rw [h1']; simp), if_pos h2]
      refine ⟨?_, fun _ => ccn_case_whitespace h1' h2, ?_, ?_,
        fun hcon _ => by rw [hcon] at h1'; cases h1'⟩
      all_goals intro hc; rw [hcl] at hc; cases hc
    · have h2' : isWhitespaceChar c = false := by simpa using h2
      by_cases h3 : (re && is_emoji emojiProp c) = true
      · have hcl : classify emojiProp allow re c = CodepointCategory.emojiCat := by
          unfold classify
          rw [if_neg (by rw [h1']; simp), if_neg (by rw [h2']; simp), if_pos h3]
        refine ⟨?_, ?_, fun _ => ccn_case_emoji h1' h2' h3, ?_,
          fun hcon _ => by rw [hcon] at h1'; cases h1'⟩
        all_goals intro hc; rw [hcl] at hc; cases hc
      · have h3' : (re && is_emoji emojiProp c) = false := by simpa using h3
        have hcl : classify emojiProp allow re c = CodepointCategory.decomposable := by
          unfold classify
          rw [if_neg (by rw [h1']; simp), if_neg (by rw [h2']; simp),
            if_neg (by rw [h3']; simp)]
        refine ⟨?_, ?_, ?_, fun _ => ccn_case_decomp h1' h2' h3',
          fun hcon _ => by rw [hcon] at h1'; cases h1'⟩
        all_goals intro hc; rw [hcl] at hc; cases hc

theorem ccn_matches_classifier_witness :
    [spaceChar].contains spaceChar = true ∧ isWhitespaceChar spaceChar = true ∧
    (custom_character_normalization trivialDecomp noEmojiProp spaceChar [spaceChar]
      true false false).1 = [spaceChar] :=
  ⟨by decide, by decide,
    (ccn_matches_classifier trivialDecomp noEmojiProp spaceChar [spaceChar]
      true false false).2.2.2.2 (by decide) (by decide)⟩

/-- C2: a character that produces no output leaves the previous_whitespace
state untouched: both a character dropped as an emoji under
remove_emojis = true and a character whose filtered compatibility
decomposition is empty make the step return the incoming flag unchanged,
emitting nothing. -/
theorem state_preserved_on_drop (decomp : Char → List Char) (emojiProp : Char → Bool)
    (c : Char) (allow : List Char) (cw prev re : Bool)
    (h1 : allow.contains c = false) (h2 : isWhitespaceChar c = false) :
    ((re && is_emoji emojiProp c) = true →
      custom_character_normalization decomp emojiProp c allow cw prev re = ([], prev)) ∧
    ((decomp c).filter (fun r => !is_char_to_avoid r) = [] →
      custom_character_normalization decomp emojiProp c allow cw prev re = ([], prev)) := by
  constructor
  · intro h3
    exact ccn_case_emoji h1 h2 h3
  · intro h4
    by_cases h3 : (re && is_emoji emojiProp c) = true
    · exact ccn_case_emoji h1 h2 h3
    · have h3' : (re && is_emoji emojiProp c) = false := by simpa using h3
      rw [ccn_case_decomp h1 h2 h3', h4]
      rfl

theorem state_preserved_on_drop_witness :
    (['º', 'ª'] : List Char).contains (Char.ofNat 0xFE0F) = false ∧
    isWhitespaceChar (Char.ofNat 0xFE0F) = false ∧
    (true && is_emoji noEmojiProp (Char.ofNat 0xFE0F)) = true ∧
    custom_character_normalization trivialDecomp noEmojiProp (Char.ofNat 0xFE0F)
      ['º', 'ª'] true true true = ([], true) :=
  ⟨by decide, by decide, by decide,
    (state_preserved_on_drop trivialDecomp noEmojiProp (Char.ofNat 0xFE0F) ['º', 'ª']
      true true true (by decide) (by decide)).1 (by decide)⟩

/-- C3 counterexample: with the real compatibility decomposition of U+00A8
(DIAERESIS decomposes to U+0020 U+0308), the remove_emojis entry point,
which sets collapse_whitespace = true, still produces two consecutive ASCII
spaces on the input "a &#xA8;b": the space pushed by the whitespace rule is
immediately followed by the space emitted by the decomposition path. -/
theorem no_double_space_counterexample :
    ¬ noDoubleSpace (remove_emojis decompDiaeresis id noEmojiProp
      ['a', spaceChar, Char.ofNat 0xA8, 'b']) := by decide

/-- C3 amended: when collapse_whitespace = true the output of either entry
point contains no run of two consecutive ASCII spaces, provided the filtered
compatibility decomposition of a non-whitespace character never contains
U+0020 (real Unicode data violates this proviso, e.g. U+00A8) and the
canonical composition pass preserves space-run freedom. -/
theorem no_double_space_amended (decomp : Char → List Char) (nfc : List Char → List Char)
    (emojiProp : Char → Bool) (v : List Char) (aT aE re : Bool)
    (hdec : ∀ c x, isWhitespaceChar c = false → x ∈ decomp c →
      is_char_to_avoid x = false → x ≠ spaceChar)
    (hnfc : ∀ m, noDoubleSpace m → noDoubleSpace (nfc m)) :
    noDoubleSpace (basic_string_clean decomp nfc emojiProp v aT aE true re) ∧
    noDoubleSpace (remove_emojis decomp nfc emojiProp v) := by
  constructor
  · have hsp : (basicAllowedChars aT aE).contains spaceChar = false := by
      cases aT <;> cases aE <;> decide
    have hbuf := @aux_noDoubleSpace decomp emojiProp (basicAllowedChars aT aE) re hsp hdec v false
    exact List.Chain'.infix (hnfc _ hbuf) (trimCharsIsInfixOfSelf _)
  · have hsp : (['º', 'ª'] : List Char).contains spaceChar = false := by decide
    have hbuf := @aux_noDoubleSpace decomp emojiProp ['º', 'ª'] true hsp hdec v false
    exact List.Chain'.infix (hnfc _ hbuf) (trimCharsIsInfixOfSelf _)

theorem no_double_space_amended_witness :
    noDoubleSpace (remove_emojis trivialDecomp id noEmojiProp
      ['a', spaceChar, spaceChar, 'b']) :=
  (no_double_space_amended trivialDecomp id noEmojiProp ['a', spaceChar, spaceChar, 'b']
    false false false trivialDecomp_no_space (fun _ h => h)).2

/-- C4 counterexample: with the default option allow_eol = true the line feed
is allow-listed and the basic_string_clean entry point returns it verbatim,
so the output contains a raw whitespace character other than U+0020. -/
theorem ws_output_counterexample :
    isWhitespaceChar '\n' = true ∧ '\n' ≠ spaceChar ∧
    '\n' ∈ basic_string_clean trivialDecomp id noEmojiProp ['a', '\n', 'b']
      false true false false := by decide

/-- C4 amended: the outputs of basic_string_clean with
allow_tab = allow_eol = false, and of remove_emojis, contain no raw
whitespace character other than U+0020, provided the decomposition
primitive only contributes U+0020 as a whitespace code point and the
canonical composition pass preserves that property; with whitespace
characters in the allow list (e.g. allow_eol = true) the original claim
fails. -/
theorem ws_output_is_space_amended (decomp : Char → List Char) (nfc : List Char → List Char)
    (emojiProp : Char → Bool) (v : List Char) (cw re : Bool)
    (hdec : ∀ c x, isWhitespaceChar c = false → x ∈ decomp c → is_char_to_avoid x = false →
      isWhitespaceChar x = true → x = spaceChar)
    (hnfc : ∀ m, (∀ y ∈ m, isWhitespaceChar y = true → y = spaceChar) →
      ∀ y ∈ nfc m, isWhitespaceChar y = true → y = spaceChar) :
    (∀ x, x ∈ basic_string_clean decomp nfc emojiProp v false false cw re →
      x ≠ spaceChar → isWhitespaceChar x = false) ∧
    (∀ x, x ∈ remove_emojis decomp nfc emojiProp v →
      x ≠ spaceChar → isWhitespaceChar x = false) := by
  have hallow : ∀ a : Char, (['º', 'ª'] : List Char).contains a = true →
      isWhitespaceChar a = true → a = spaceChar := by
    intro a ha hw
    have h2 : a = 'º' ∨ a = 'ª' := by simpa using ha
    rcases h2 with rfl | rfl <;> exact absurd hw (by decide)
  have key : ∀ (cw' re' : Bool) (y : Char),
      y ∈ customNormalizationAux decomp emojiProp ['º', 'ª'] cw' re' v false →
      isWhitespaceChar y = true → y = spaceChar := by
    intro cw' re' y hy hwy
    obtain ⟨c, _, p, hp⟩ := mem_customNormalizationAux v false y hy
    rcases mem_custom_character_normalization hp with ⟨hyc, hcon⟩ | hspy | h
    · exact hallow y (hyc ▸ hcon) hwy
    · exact hspy
    · obtain ⟨hmem, havoid, _, hws, _⟩ := h
      exact hdec c y hws hmem havoid hwy
  constructor
  · intro x hx hne
    by_cases hw : isWhitespaceChar x = true
    · have hx2 : x ∈ nfc (customNormalizationAux decomp emojiProp
          (basicAllowedChars false false) cw re v false) := mem_trimChars hx
      have : x = spaceChar := hnfc _ (key cw re) x hx2 hw
      exact absurd this hne
    · simpa using hw
  · intro x hx hne
    by_cases hw : isWhitespaceChar x = true
    · have hx2 : x ∈ nfc (customNormalizationAux decomp emojiProp
          ['º', 'ª'] true true v false) := mem_trimChars hx
      have : x = spaceChar := hnfc _ (key true true) x hx2 hw
      exact absurd this hne
    · simpa using hw

theorem ws_output_is_space_amended_witness :
    isWhitespaceChar 'a' = false :=
  (ws_output_is_space_amended trivialDecomp id noEmojiProp ['a', spaceChar, 'b'] false false
    (fun c x hws hmem _ hwx => by
      have hxc : x = c := by simpa [trivialDecomp] using hmem
      rw [hxc, hws] at hwx
      cases hwx)
    (fun _ h => h)).1 'a' (by decide) (by decide)

/-- C5 counterexample: with the real compatibility decomposition of U+00A8
the remove_emojis entry point is not idempotent: on "a &#xA8;b" the first pass
produces a double space (the decomposition path emitted U+0020 after a
whitespace-rule space), and the second pass collapses that run, so the two
results differ. -/
theorem normalization_idempotent_counterexample :
    remove_emojis decompDiaeresis id noEmojiProp
        (remove_emojis decompDiaeresis id noEmojiProp
          ['a', spaceChar, Char.ofNat 0xA8, 'b'])
      ≠ remove_emojis decompDiaeresis id noEmojiProp
          ['a', spaceChar, Char.ofNat 0xA8, 'b'] := by decide

/-- C5 amended: both entry points are idempotent with fixed options provided
every character decomposes trivially (the decomposition primitive returns
the character itself) and the canonical composition pass is the identity on
the buffer; with the real Unicode tables the claim fails, e.g. on U+00A8,
whose decomposition reintroduces a space next to a collapsed run. -/
theorem normalization_idempotent_amended (decomp : Char → List Char)
    (nfc : List Char → List Char) (emojiProp : Char → Bool) (v : List Char)
    (aT aE cw re : Bool)
    (hd : ∀ c, decomp c = [c]) (hn : ∀ m, nfc m = m) :
    basic_string_clean decomp nfc emojiProp
        (basic_string_clean decomp nfc emojiProp v aT aE cw re) aT aE cw re
      = basic_string_clean decomp nfc emojiProp v aT aE cw re ∧
    remove_emojis decomp nfc emojiProp (remove_emojis decomp nfc emojiProp v)
      = remove_emojis decomp nfc emojiProp v := by
  have hde : decomp = trivialDecomp := funext hd
  have hne : nfc = id := funext hn
  subst hde
  subst hne
  constructor
  · have hsp : (basicAllowedChars aT aE).contains spaceChar = false := by
      cases aT <;> cases aE <;> decide
    exact pipeline_idem_core hsp v
  · have hsp : (['º', 'ª'] : List Char).contains spaceChar = false := by decide
    exact pipeline_idem_core hsp v

theorem normalization_idempotent_amended_witness :
    basic_string_clean trivialDecomp id noEmojiProp
        (basic_string_clean trivialDecomp id noEmojiProp ['a', spaceChar, 'b']
          false true true false) false true true false
      = basic_string_clean trivialDecomp id noEmojiProp ['a', spaceChar, 'b']
          false true true false :=
  (normalization_idempotent_amended trivialDecomp id noEmojiProp ['a', spaceChar, 'b']
    false true true false (fun _ => rfl) (fun _ => rfl)).1

lemma trivialDecomp_emoji (emojiProp : Char → Bool) : ∀ c x,
    is_emoji emojiProp c = false → x ∈ trivialDecomp c → is_emoji emojiProp x = false := by
  intro c x hc hx
  have hxc : x = c := by simpa [trivialDecomp] using hx
  rw [hxc]
  exact hc

/-- C6: emoji closure. When remove_emojis = true every code point of the
output of either entry point fails is_emoji, provided the property table
holds on none of the allow-listed characters nor on the space character,
the decomposition primitive maps emoji-free characters to emoji-free code
points, and the canonical composition pass preserves emoji freedom. -/
theorem emoji_closure (decomp : Char → List Char) (nfc : List Char → List Char)
    (emojiProp : Char → Bool) (v : List Char) (aT aE cw : Bool)
    (hdec : ∀ c x, is_emoji emojiProp c = false → x ∈ decomp c →
      is_emoji emojiProp x = false)
    (hnfc : ∀ m, (∀ y ∈ m, is_emoji emojiProp y = false) →
      ∀ y ∈ nfc m, is_emoji emojiProp y = false)
    (hq1 : emojiProp 'º' = false) (hq2 : emojiProp 'ª' = false)
    (hq3 : emojiProp '\t' = false) (hq4 : emojiProp '\n' = false)
    (hq5 : emojiProp '\r' = false) (hq6 : emojiProp spaceChar = false) :
    (∀ x ∈ basic_string_clean decomp nfc emojiProp v aT aE cw true,
      is_emoji emojiProp x = false) ∧
    (∀ x ∈ remove_emojis decomp nfc emojiProp v, is_emoji emojiProp x = false) := by
  have key : ∀ (allow : List Char),
      (∀ a, allow.contains a = true → is_emoji emojiProp a = false) →
      ∀ (cw' : Bool) (y : Char),
        y ∈ customNormalizationAux decomp emojiProp allow cw' true v false →
        is_emoji emojiProp y = false := by
    intro allow hallow cw' y hy
    obtain ⟨c, _, p, hp⟩ := mem_customNormalizationAux v false y hy
    rcases mem_custom_character_normalization hp with ⟨hyc, hcon⟩ | hspy | h
    · exact hallow y (hyc ▸ hcon)
    · rw [hspy]
      unfold is_emoji
      rw [hq6]
      decide
    · obtain ⟨hmem, _, _, _, hem⟩ := h
      have hc : is_emoji emojiProp c = false := by simpa using hem
      exact hdec c y hc hmem
  constructor
  · intro x hx
    have hallow : ∀ a, (basicAllowedChars aT aE).contains a = true →
        is_emoji emojiProp a = false := by
      intro a ha
      have h2 : a = 'º' ∨ a = 'ª' ∨ a = '\t' ∨ a = '\n' ∨ a = '\r' := by
        cases aT <;> cases aE <;> simp [basicAllowedChars] at ha <;> tauto
      rcases h2 with rfl | rfl | rfl | rfl | rfl <;>
        (unfold is_emoji; first
          | (rw [hq1]; decide)
          | (rw [hq2]; decide)
          | (rw [hq3]; decide)
          | (rw [hq4]; decide)
          | (rw [hq5]; decide))
    exact hnfc _ (key _ hallow cw) x (mem_trimChars hx)
  · intro x hx
    have hallow : ∀ a, (['º', 'ª'] : List Char).contains a = true →
        is_emoji emojiProp a = false := by
      intro a ha
      have h2 : a = 'º' ∨ a = 'ª' := by simpa using ha
      rcases h2 with rfl | rfl <;>
        (unfold is_emoji; first
          | (rw [hq1]; decide)
          | (rw [hq2]; decide))
    exact hnfc _ (key _ hallow true) x (mem_trimChars hx)

theorem emoji_closure_witness :
    is_emoji noEmojiProp 'b' = false :=
  (emoji_closure trivialDecomp id noEmojiProp ['b', Char.ofNat 0xFE0F] false false true
    (trivialDecomp_emoji noEmojiProp) (fun _ h => h)
    rfl rfl rfl rfl rfl rfl).2 'b' (by decide)

lemma avoid_false_bmp (x : Char) (h : is_char_to_avoid x = false) : x.toNat ≤ 0xFFFF := by
  unfold is_char_to_avoid at h
  simp only [Bool.or_eq_false_iff, decide_eq_false_iff_not] at h
  omega

/-- C7: BMP closure. Every code point of the output of either entry point is
at most U+FFFF: the allow-listed characters and the whitespace-rule space
are in the Basic Multilingual Plane, the decomposition filter rejects every
code point above U+FFFF, and the canonical composition pass is assumed to
preserve the bound. -/
theorem bmp_closure (decomp : Char → List Char) (nfc : List Char → List Char)
    (emojiProp : Char → Bool) (v : List Char) (aT aE cw re : Bool)
    (hnfc : ∀ m, (∀ y ∈ m, y.toNat ≤ 0xFFFF) → ∀ y ∈ nfc m, y.toNat ≤ 0xFFFF) :
    (∀ x ∈ basic_string_clean decomp nfc emojiProp v aT aE cw re, x.toNat ≤ 0xFFFF) ∧
    (∀ x ∈ remove_emojis decomp nfc emojiProp v, x.toNat ≤ 0xFFFF) := by
  have key : ∀ (allow : List Char),
      (∀ a, allow.contains a = true → a.toNat ≤ 0xFFFF) →
      ∀ (cw' re' : Bool) (y : Char),
        y ∈ customNormalizationAux decomp emojiProp allow cw' re' v false →
        y.toNat ≤ 0xFFFF := by
    intro allow hallow cw' re' y hy
    obtain ⟨c, _, p, hp⟩ := mem_customNormalizationAux v false y hy
    rcases mem_custom_character_normalization hp with ⟨hyc, hcon⟩ | hspy | h
    · exact hallow y (hyc ▸ hcon)
    · rw [hspy]
      decide
    · exact avoid_false_bmp y h.2.1
  constructor
  · intro x hx
    have hallow : ∀ a, (basicAllowedChars aT aE).contains a = true → a.toNat ≤ 0xFFFF := by
      intro a ha
      have h2 : a = 'º' ∨ a = 'ª' ∨ a = '\t' ∨ a = '\n' ∨ a = '\r' := by
        cases aT <;> cases aE <;> simp [basicAllowedChars] at ha <;> tauto
      rcases h2 with rfl | rfl | rfl | rfl | rfl <;> decide
    exact hnfc _ (key _ hallow cw re) x (mem_trimChars hx)
  · intro x hx
    have hallow : ∀ a, (['º', 'ª'] : List Char).contains a = true → a.toNat ≤ 0xFFFF := by
      intro a ha
      have h2 : a = 'º' ∨ a = 'ª' := by simpa using ha
      rcases h2 with rfl | rfl <;> decide
    exact hnfc _ (key _ hallow true true) x (mem_trimChars hx)

theorem bmp_closure_witness :
    ('a' : Char).toNat ≤ 0xFFFF :=
  (bmp_closure trivialDecomp id noEmojiProp ['a'] false false false false
    (fun _ h => h)).1 'a' (by decide)

/-- C8 counterexample: allow-list fidelity fails under the real canonical
composition pass: with allow_chars = {a}, the input a + U+0308 keeps the
allow-listed a through the scan, but NFC composes the pair into U+00E4, so
no occurrence of a remains in the pipeline output even though no trimming
was involved. -/
theorem allow_fidelity_counterexample :
    'a' ∉ custom_normalization trivialDecomp nfcAUml noEmojiProp
      ['a', Char.ofNat 0x308] ['a'] false false := by decide

/-- C8 amended: every occurrence of an allow-listed character survives the
scan into the pre-composition buffer, so its count in the untrimmed pipeline
output is at least its count in the input provided the canonical composition
pass preserves occurrences of that character; the real NFC violates that
proviso by composing an allow-listed base character with a following
combining mark. -/
theorem allow_fidelity_amended (decomp : Char → List Char) (nfc : List Char → List Char)
    (emojiProp : Char → Bool) (v allow : List Char) (cw re : Bool) (a : Char)
    (ha : allow.contains a = true)
    (hnfc : ∀ m : List Char, (nfc m).count a = m.count a) :
    v.count a ≤ (custom_normalization decomp nfc emojiProp v allow cw re).count a := by
  unfold custom_normalization
  rw [hnfc]
  exact count_customNormalizationAux a ha v false

theorem allow_fidelity_amended_witness :
    (['x', 'a'] : List Char).count 'a'
      ≤ (custom_normalization trivialDecomp id noEmojiProp ['x', 'a'] ['a'] true true).count 'a' :=
  allow_fidelity_amended trivialDecomp id noEmojiProp ['x', 'a'] ['a'] true true 'a'
    (by decide) (fun _ => rfl)

/-- C9: the halfwidth-katakana scenario. Provided the decomposition primitive
maps the five halfwidth katakana vowels to their Unicode compatibility
decompositions, they carry no emoji property, and the canonical composition
pass leaves the resulting fullwidth katakana buffer unchanged, the
remove_emojis entry point maps the halfwidth string to the fullwidth one. -/
theorem katakana_scenario (decomp : Char → List Char) (nfc : List Char → List Char)
    (emojiProp : Char → Bool)
    (hd1 : decomp 'ｱ' = ['ア']) (hd2 : decomp 'ｲ' = ['イ']) (hd3 : decomp 'ｳ' = ['ウ'])
    (hd4 : decomp 'ｴ' = ['エ']) (hd5 : decomp 'ｵ' = ['オ'])
    (hn : nfc ['ア', 'イ', 'ウ', 'エ', 'オ'] = ['ア', 'イ', 'ウ', 'エ', 'オ'])
    (he1 : emojiProp 'ｱ' = false) (he2 : emojiProp 'ｲ' = false) (he3 : emojiProp 'ｳ' = false)
    (he4 : emojiProp 'ｴ' = false) (he5 : emojiProp 'ｵ' = false) :
    remove_emojis decomp nfc emojiProp ['ｱ', 'ｲ', 'ｳ', 'ｴ', 'ｵ']
      = ['ア', 'イ', 'ウ', 'エ', 'オ'] := by
  have s1 : ∀ p, custom_character_normalization decomp emojiProp 'ｱ' ['º', 'ª'] true p true
      = (['ア'], false) := by
    intro p
    rw [ccn_case_decomp (by decide) (by decide) (by unfold is_emoji; rw [he1]; decide), hd1]
    rfl
  have s2 : ∀ p, custom_character_normalization decomp emojiProp 'ｲ' ['º', 'ª'] true p true
      = (['イ'], false) := by
    intro p
    rw [ccn_case_decomp (by decide) (by decide) (by unfold is_emoji; rw [he2]; decide), hd2]
    rfl
  have s3 : ∀ p, custom_character_normalization decomp emojiProp 'ｳ' ['º', 'ª'] true p true
      = (['ウ'], false) := by
    intro p
    rw [ccn_case_decomp (by decide) (by decide) (by unfold is_emoji; rw [he3]; decide), hd3]
    rfl
  have s4 : ∀ p, custom_character_normalization decomp emojiProp 'ｴ' ['º', 'ª'] true p true
      = (['エ'], false) := by
    intro p
    rw [ccn_case_decomp (by decide) (by decide) (by unfold is_emoji; rw [he4]; decide), hd4]
    rfl
  have s5 : ∀ p, custom_character_normalization decomp emojiProp 'ｵ' ['º', 'ª'] true p true
      = (['オ'], false) := by
    intro p
    rw [ccn_case_decomp (by decide) (by decide) (by unfold is_emoji; rw [he5]; decide), hd5]
    rfl
  have hbuf : customNormalizationAux decomp emojiProp ['º', 'ª'] true true
      ['ｱ', 'ｲ', 'ｳ', 'ｴ', 'ｵ'] false = ['ア', 'イ', 'ウ', 'エ', 'オ'] := by
    simp only [customNormalizationAux, s1, s2, s3, s4, s5]
    rfl
  unfold remove_emojis custom_normalization
  rw [hbuf, hn]
  decide

theorem katakana_scenario_witness :
    remove_emojis decompKatakana id noEmojiProp ['ｱ', 'ｲ', 'ｳ', 'ｴ', 'ｵ']
      = ['ア', 'イ', 'ウ', 'エ', 'オ'] :=
  katakana_scenario decompKatakana id noEmojiProp
    (by decide) (by decide) (by decide) (by decide) (by decide) rfl
    rfl rfl rfl rfl rfl

/-- C10: the final trim of both entry points removes every leading and
trailing Unicode whitespace character, not only ASCII spaces: the returned
string never starts or ends with a White_Space code point, for any options
and any primitives, while interior occurrences are kept, as the concrete
run with an allow-listed line feed shows (the trailing allowed LF is gone,
the interior one survives). -/
theorem final_trim_unicode_ws :
    (∀ (decomp : Char → List Char) (nfc : List Char → List Char) (emojiProp : Char → Bool)
      (v : List Char) (aT aE cw re : Bool) (x : Char),
        ((basic_string_clean decomp nfc emojiProp v aT aE cw re).head? = some x →
          isWhitespaceChar x = false) ∧
        ((basic_string_clean decomp nfc emojiProp v aT aE cw re).getLast? = some x →
          isWhitespaceChar x = false)) ∧
    (∀ (decomp : Char → List Char) (nfc : List Char → List Char) (emojiProp : Char → Bool)
      (v : List Char) (x : Char),
        ((remove_emojis decomp nfc emojiProp v).head? = some x →
          isWhitespaceChar x = false) ∧
        ((remove_emojis decomp nfc emojiProp v).getLast? = some x →
          isWhitespaceChar x = false)) ∧
    basic_string_clean trivialDecomp id noEmojiProp ['a', '\n', 'b', '\n']
      false true false false = ['a', '\n', 'b'] := by
  refine ⟨?_, ?_, by decide⟩
  · intro decomp nfc emojiProp v aT aE cw re x
    exact ⟨trimChars_head?_not _ x, trimChars_getLast?_not _ x⟩
  · intro decomp nfc emojiProp v x
    exact ⟨trimChars_head?_not _ x, trimChars_getLast?_not _ x⟩

theorem final_trim_unicode_ws_witness :
    isWhitespaceChar 'a' = false :=
  (final_trim_unicode_ws.1 trivialDecomp id noEmojiProp ['a'] false false false false 'a').1
    (by decide)
